import Mathlib

/-!
Shallow embedding of strava_to_zwo.py (the core numeric pipeline:
Resampler, Smoother, Quantizer, Segmenter, IntervalMerger, and the
FTP-normalization step of the Exporter), together with proofs of the
specification claims about it.

Times are embedded as integers, power values as rationals (the Python
floats carry exact small decimals in every claim-relevant computation,
and no claim depends on rounding of binary floating point).
-/

set_option autoImplicit false

/-- Python `max(l)` on a list of integers (0 for the empty list, on which
Python would raise instead; every use below is guarded by nonemptiness). -/
def listMax : List ℤ → ℤ
  | [] => 0
  | x :: xs => xs.foldl max x

/-- Python `min(l)` on a list of integers (0 for the empty list). -/
def listMin : List ℤ → ℤ
  | [] => 0
  | x :: xs => xs.foldl min x

/-- Piecewise-linear interpolation through a list of (x, y) knots sorted by
ascending x, as `scipy.interpolate.interp1d` evaluates it for an in-range
query t: find the interval containing t and apply
`y1 + (t - x1) * (y2 - y1) / (x2 - x1)`. -/
def interpAt : List (ℤ × ℚ) → ℤ → ℚ
  | [], _ => 0
  | [(_, y)], _ => y
  | (x1, y1) :: (x2, y2) :: rest, t =>
    if t ≤ x2 then
      y1 + ((t - x1 : ℤ) : ℚ) / ((x2 - x1 : ℤ) : ℚ) * (y2 - y1)
    else
      interpAt ((x2, y2) :: rest) t

/-- `scipy.interpolate.interp1d` sorts its knots by x before interpolating
(`assume_sorted=False` is the default, realized by a stable argsort). -/
def sortByTime (pts : List (ℤ × ℚ)) : List (ℤ × ℚ) :=
  List.insertionSort (fun a b => a.1 ≤ b.1) pts

/-- Embeds `resample_ride_data` (src/strava_to_zwo.py lines 41-57).
`interp1d(time, watts)` raises unless both lists have the same length of
at least 2; the interpolant is evaluated at `range(0, max(time))`, raising
(bounds_error) if any query falls outside the observed x-range; finally
`np.maximum(min_p, ·)` floors every value.  A raise is embedded as `none`.
The Python default for min_p is 100.0. -/
def resample_ride_data (time : List ℤ) (watts : List ℚ) (min_p : ℚ) :
    Option (List ℚ) :=
  if time.length < 2 ∨ watts.length ≠ time.length then none
  else
    let pts := sortByTime (time.zip watts)
    let new_t := (List.range (listMax time).toNat).map Int.ofNat
    if ∀ t ∈ new_t, listMin time ≤ t ∧ t ≤ listMax time then
      some (new_t.map (fun t => max min_p (interpAt pts t)))
    else none

/-- Ascending sort of rational values, used to extract window medians. -/
def sortedRats (l : List ℚ) : List ℚ :=
  List.insertionSort (fun a b => a ≤ b) l

/-- The element of rank k in ascending order (the median of a window of
2k+1 values). -/
def rankOf (l : List ℚ) (k : ℕ) : ℚ :=
  (sortedRats l).getD k 0

/-- Zero-padded indexing: out-of-range window positions read as 0, which is
how `scipy.signal.medfilt` extends the array at its boundaries (its
documented behavior: the array is automatically zero-padded). -/
def zeroPadGet (x : List ℚ) (i : ℤ) : ℚ :=
  if 0 ≤ i ∧ i < (x.length : ℤ) then x.getD i.toNat 0 else 0

/-- Embeds `scipy.signal.medfilt(x, k)` as called at src/strava_to_zwo.py
line 191: each output sample i is the median (rank k/2 of the k window
values) of the zero-padded window centered at i. -/
def medfilt (x : List ℚ) (k : ℕ) : List ℚ :=
  (List.range x.length).map (fun i =>
    rankOf ((List.range k).map (fun j =>
      zeroPadGet x (Int.ofNat i + Int.ofNat j - Int.ofNat (k / 2)))) (k / 2))

/-- Symmetric/reflective indexing into a list: indices outside the range
reflect off the boundaries (period 2n folding). -/
def reflectGet (x : List ℚ) (i : ℤ) : ℚ :=
  if x.length = 0 then 0
  else
    let n : ℤ := (x.length : ℤ)
    let m := i.emod (2 * n)
    let j := if m < n then m else 2 * n - 1 - m
    x.getD j.toNat 0

/-- Modelled from the spec's words for the Smoother contract (a median
filter whose boundary samples use a symmetric/reflective padding policy),
for comparison with the zero-padding the code's filter actually performs. -/
def medfilt_reflect (x : List ℚ) (k : ℕ) : List ℚ :=
  (List.range x.length).map (fun i =>
    rankOf ((List.range k).map (fun j =>
      reflectGet x (Int.ofNat i + Int.ofNat j - Int.ofNat (k / 2)))) (k / 2))

/-- The centroid a sample is assigned to: the first centroid of minimal
absolute distance, which is sklearn `KMeans.predict`'s assignment rule in
one dimension (argmin over distances, ties to the lowest index). -/
def assignCentroid (centers : List ℚ) (x : ℚ) : ℚ :=
  match centers with
  | [] => 0
  | c :: cs => cs.foldl (fun best c2 => if |x - c2| < |x - best| then c2 else best) c

/-- Embeds `get_quantized_power` (src/strava_to_zwo.py lines 61-77): each
sample is replaced by the centroid value of the cluster it is predicted
into, `kmeans.cluster_centers_[kmeans.predict(sm_p)]`.  The fitted KMeans
model is abstracted by its resulting centroid list `centers` (sklearn's
iterative fit is external library code; the claims hold for every possible
centroid list its fit could return). -/
def get_quantized_power (centers : List ℚ) (sm_p : List ℚ) : List ℚ :=
  sm_p.map (assignCentroid centers)

/-- The loop of `get_power_segents`: `start` is the index where the current
run began, `i` the index of the next unprocessed sample (the remaining
samples q_p[i:] are the list argument), `thisVal` the current run's value.
On a value change the segment `(i - start, thisVal)` is appended; after the
loop the final segment is appended with duration `len(q_p) - 1 - start`
(here `i + rest.length` plays the role of `len(q_p)`). -/
def segAux (start i : ℕ) (thisVal : ℚ) : List ℚ → List (ℕ × ℚ)
  | [] => [(i - 1 - start, thisVal)]
  | x :: xs =>
    if x ≠ thisVal then (i - start, thisVal) :: segAux i (i + 1) x xs
    else segAux start (i + 1) thisVal xs

/-- Embeds `get_power_segents` (src/strava_to_zwo.py lines 81-103).  The
Python code reads `q_p[0]` unconditionally, raising IndexError on an empty
list; that raise is embedded as `none`. -/
def get_power_segents (q_p : List ℚ) : Option (List (ℕ × ℚ)) :=
  match q_p with
  | [] => none
  | x :: xs => some (segAux 0 1 x xs)

/-- Python `int()` applied to a rational: truncation toward zero. -/
def ratTrunc (q : ℚ) : ℤ :=
  Int.tdiv q.num (q.den : ℤ)

/-- The loop of `get_intervals`: accumulator `(dur, last_p)` starts at
(0, 0.0); for each segment (d, p) both branches first compute the
duration-weighted average `(dur/(dur+d))*last_p + (d/(dur+d))*p`, which in
Python raises ZeroDivisionError when dur + d = 0 (embedded as `none`); if
`max(dur, d) < m` the update only accumulates, otherwise the interval
`(dur + d, int(average))` is emitted and the accumulator resets. -/
def intervalsAux (m : ℕ) (dur : ℕ) (last_p : ℚ) :
    List (ℕ × ℚ) → Option (List (ℕ × ℤ))
  | [] => some []
  | (d, p) :: rest =>
    if dur + d = 0 then none
    else
      let avg := ((dur : ℚ) / ((dur : ℚ) + (d : ℚ))) * last_p
        + ((d : ℚ) / ((dur : ℚ) + (d : ℚ))) * p
      if max dur d < m then
        intervalsAux m (dur + d) avg rest
      else
        (intervalsAux m 0 0 rest).map (fun out => (dur + d, ratTrunc avg) :: out)

/-- Embeds `get_intervals` (src/strava_to_zwo.py lines 107-134); the Python
default for m (min_duration) is 30. -/
def get_intervals (segments : List (ℕ × ℚ)) (m : ℕ) : Option (List (ℕ × ℤ)) :=
  intervalsAux m 0 0 segments

/-- Embeds the FTP resolution of `main` (src/strava_to_zwo.py lines
203-211): an omitted option (`none`) and a present but non-numeric option
(`some none`; Python float() parsing abstracted by its Option result) both
degrade to the default 300.0; a numeric value is used as given. -/
def resolve_ftp : Option (Option ℚ) → ℚ
  | none => 300
  | some none => 300
  | some (some v) => v

/-- Embeds the power normalization of `generate_zwo_file`
(src/strava_to_zwo.py lines 154-157): each emitted interval's power is
written as `float(power)/ftp`. -/
def zwo_powers (intervals : List (ℕ × ℤ)) (ftp : ℚ) : List ℚ :=
  intervals.map (fun it => (it.2 : ℚ) / ftp)

/-! ### Helper lemmas about Python-style list min and max -/

theorem foldl_min_le (l : List ℤ) : ∀ b : ℤ, l.foldl min b ≤ b := by
  induction l with
  | nil => intro b; simp
  | cons x xs ih =>
    intro b
    simp only [List.foldl_cons]
    exact le_trans (ih (min b x)) (min_le_left _ _)

theorem le_foldl_max (l : List ℤ) : ∀ b : ℤ, b ≤ l.foldl max b := by
  induction l with
  | nil => intro b; simp
  | cons x xs ih =>
    intro b
    simp only [List.foldl_cons]
    exact le_trans (le_max_left _ _) (ih (max b x))

theorem listMin_le_listMax (time : List ℤ) (h : time ≠ []) :
    listMin time ≤ listMax time := by
  cases time with
  | nil => exact absurd rfl h
  | cons t ts => exact le_trans (foldl_min_le ts t) (le_foldl_max ts t)

/-- C1 (amended): for every valid input (time strictly increasing, watts the
same length, at least 2 points), any UniformSeries the Resampler actually
produces has length `max(max(time), 0)` — that is, exactly `max(time)`
whenever `max(time) ≥ 0` — and every one of its values is at least min_p. -/
theorem resample_output_shape (time : List ℤ) (watts : List ℚ) (min_p : ℚ)
    (out : List ℚ) (hmono : List.Chain' (fun a b => a < b) time)
    (hlen : watts.length = time.length) (h2 : 2 ≤ time.length)
    (h : resample_ride_data time watts min_p = some out) :
    out.length = (listMax time).toNat ∧ ∀ v ∈ out, min_p ≤ v := by
  simp only [resample_ride_data] at h
  split at h
  · exact absurd h (by simp)
  · split at h
    · obtain rfl : _ = out := Option.some.inj h
      constructor
      · simp only [List.length_map, List.length_range]
      · intro v hv
        simp only [List.mem_map] at hv
        obtain ⟨t, ht, rfl⟩ := hv
        exact le_max_left _ _
    · exact absurd h (by simp)

/-- Witness for C1's theorem at time = [0, 2], watts = [5, 7]: the produced
series is [100, 100], of length max(time) = 2. -/
theorem resample_output_shape_witness :
    ([(100 : ℚ), 100]).length = (listMax [(0 : ℤ), 2]).toNat :=
  (resample_output_shape [0, 2] [5, 7] 100 [100, 100]
    (by norm_num [List.chain'_cons]) (by decide) (by decide) (by
      norm_num [resample_ride_data, sortByTime, listMax, listMin, interpAt,
        List.insertionSort, List.orderedInsert]
      refine ⟨?_, ?_⟩
      · omega
      · simp only [show ((2 : ℤ)).toNat = 2 from rfl]
        norm_num [List.range_succ, max_def])).1

/-- C1 counterexample: at time = [-2, -1] (strictly increasing integers,
length 2) with watts = [5, 5], the code evaluates the interpolant on the
empty index range `range(0, -1)` and returns an empty series, whose length
0 differs from max(time) = -1; the claim as stated is therefore false. -/
theorem resample_maxtime_counterexample :
    ¬ (∀ (time : List ℤ) (watts : List ℚ) (out : List ℚ),
        List.Chain' (fun a b => a < b) time → watts.length = time.length →
        2 ≤ time.length → resample_ride_data time watts 100 = some out →
        ((out.length : ℤ) = listMax time ∧ ∀ v ∈ out, 100 ≤ v)) := by
  intro h
  have h2 := h [-2, -1] [5, 5] [] (by norm_num [List.chain'_cons]) (by decide)
    (by decide) (by decide)
  exact absurd h2.1 (by decide)

/-- C5 (amended): an input with fewer than 2 time points makes
`resample_ride_data` fail; the failure is untyped (main's bare except
collapses every load/resample failure into one generic message), and a
non-strictly-increasing time sequence does not in general fail at all,
because the interpolator sorts its input (see the counterexample). -/
theorem resample_short_fails (time : List ℤ) (watts : List ℚ) (min_p : ℚ)
    (h : time.length < 2) : resample_ride_data time watts min_p = none := by
  simp only [resample_ride_data, if_pos (Or.inl h)]

/-- Witness for C5's amended theorem on the empty input. -/
theorem resample_short_fails_witness : resample_ride_data [] [] 100 = none :=
  resample_short_fails [] [] 100 (by decide)

/-- C5 counterexample: time = [0, 10, 5] is not strictly increasing, yet
resampling succeeds (interp1d sorts its knots), so the pipeline does not
fail there — in particular it does not fail with a typed InvalidInputError,
which the program never defines. -/
theorem nonmonotone_no_failure_counterexample :
    ¬ (∀ (time : List ℤ) (watts : List ℚ),
        ¬ List.Chain' (fun a b => a < b) time →
        resample_ride_data time watts 100 = none) := by
  intro h
  exact absurd (h [0, 10, 5] [100, 150, 200] (by norm_num [List.chain'_cons]))
    (by decide)

/-- C10: whenever the smallest recorded time exceeds 0, resampling fails
rather than producing a UniformSeries: the interpolant would have to be
evaluated at second 0, which lies outside the observed time range, and
`interp1d` refuses to extrapolate. -/
theorem resample_pos_min_fails (time : List ℤ) (watts : List ℚ) (min_p : ℚ)
    (h : 0 < listMin time) : resample_ride_data time watts min_p = none := by
  by_cases hg : time.length < 2 ∨ watts.length ≠ time.length
  · simp only [resample_ride_data, if_pos hg]
  · have hne : time ≠ [] := by
      intro hh
      rw [hh] at hg
      exact hg (Or.inl (by simp))
    have hmax : 1 ≤ listMax time := le_trans h (listMin_le_listMax time hne)
    have hfalse : ¬ (∀ t ∈ (List.range (listMax time).toNat).map Int.ofNat,
        listMin time ≤ t ∧ t ≤ listMax time) := by
      intro hall
      have hmem : (0 : ℤ) ∈ (List.range (listMax time).toNat).map
          Int.ofNat := by
        simp only [List.mem_map]
        exact ⟨0, List.mem_range.mpr (by omega), rfl⟩
      have h0 := (hall 0 hmem).1
      omega
    simp only [resample_ride_data, if_neg hg, if_neg hfalse]

/-- Witness for C10's theorem: time = [1, 2] starts after second 0, so the
resampler fails. -/
theorem resample_pos_min_fails_witness :
    resample_ride_data [1, 2] [0, 0] 100 = none :=
  resample_pos_min_fails [1, 2] [0, 0] 100 (by decide)

/-! ### Segmenter lemmas -/

theorem segAux_sum (rest : List ℚ) : ∀ (start i : ℕ) (v : ℚ), start < i →
    ((segAux start i v rest).map Prod.fst).sum = i + rest.length - 1 - start := by
  induction rest with
  | nil =>
    intro start i v hsi
    simp only [segAux, List.map_cons, List.map_nil, List.sum_cons,
      List.sum_nil, List.length_nil]
    omega
  | cons x xs ih =>
    intro start i v hsi
    simp only [segAux, List.length_cons]
    split
    · simp only [List.map_cons, List.sum_cons]
      rw [ih i (i + 1) x (by omega)]
      omega
    · rw [ih start (i + 1) v (by omega)]
      omega

/-- C2: for every non-empty QuantizedSeries, the durations of the segments
produced by the Segmenter sum to its length minus 1 — the final segment is
closed with `len(q_p) - 1 - start`, so the very last sample is never
counted into any duration. -/
theorem seg_durations_sum (q_p : List ℚ) (segs : List (ℕ × ℚ))
    (h : get_power_segents q_p = some segs) :
    (segs.map Prod.fst).sum = q_p.length - 1 := by
  cases q_p with
  | nil => exact absurd h (by simp [get_power_segents])
  | cons x xs =>
    simp only [get_power_segents, Option.some.injEq] at h
    subst h
    rw [segAux_sum xs 0 1 x (by omega)]
    simp only [List.length_cons]
    omega

/-- Witness for C2's theorem: [1, 1, 2] yields segments [(2, 1), (0, 2)]
whose durations sum to 3 - 1 = 2. -/
theorem seg_durations_sum_witness :
    (([((2 : ℕ), (1 : ℚ)), (0, 2)]).map Prod.fst).sum =
      ([(1 : ℚ), 1, 2]).length - 1 :=
  seg_durations_sum [1, 1, 2] [(2, 1), (0, 2)] (by decide)

theorem segAux_ne_nil (rest : List ℚ) : ∀ (start i : ℕ) (v : ℚ),
    segAux start i v rest ≠ [] := by
  induction rest with
  | nil => intro start i v; simp [segAux]
  | cons x xs ih =>
    intro start i v
    simp only [segAux]
    split
    · simp
    · exact ih start (i + 1) v

theorem getLast?_cons_of_ne_nil {α : Type} (a : α) (l : List α) (h : l ≠ []) :
    (a :: l).getLast? = l.getLast? := by
  cases l with
  | nil => exact absurd rfl h
  | cons b bs => exact List.getLast?_cons_cons

theorem segAux_replicate (m : ℕ) : ∀ (start i : ℕ) (v : ℚ),
    segAux start i v (List.replicate m v) = [(i + m - 1 - start, v)] := by
  induction m with
  | zero => intro start i v; simp [segAux]
  | succ k ih =>
    intro start i v
    simp only [List.replicate_succ, segAux]
    rw [if_neg (by simp)]
    rw [ih start (i + 1) v]
    have heq : i + 1 + k - 1 - start = i + (k + 1) - 1 - start := by omega
    rw [heq]

theorem segAux_append_replicate (n : ℕ) (v : ℚ) (hn : 0 < n) (p : List ℚ) :
    ∀ (start i : ℕ) (v0 : ℚ), (p = [] → v0 ≠ v) →
    (∀ x, p.getLast? = some x → x ≠ v) →
    (segAux start i v0 (p ++ List.replicate n v)).getLast? = some (n - 1, v) := by
  induction p with
  | nil =>
    intro start i v0 h0 _
    have hv : v0 ≠ v := h0 rfl
    obtain ⟨k, rfl⟩ : ∃ k, n = k + 1 := ⟨n - 1, by omega⟩
    simp only [List.nil_append, List.replicate_succ, segAux]
    rw [if_pos (Ne.symm hv)]
    rw [segAux_replicate k i (i + 1) v]
    have heq : i + 1 + k - 1 - i = k := by omega
    rw [heq]
    rfl
  | cons y p1 ih =>
    intro start i v0 h0 hlast
    have hstep : ∀ (s2 i2 : ℕ),
        (segAux s2 i2 y (p1 ++ List.replicate n v)).getLast? = some (n - 1, v) := by
      intro s2 i2
      apply ih s2 i2 y
      · intro hp1
        subst hp1
        exact hlast y (by simp)
      · intro x hx
        have hp1 : p1 ≠ [] := by
          intro hh
          subst hh
          simp at hx
        exact hlast x (by rw [getLast?_cons_of_ne_nil y p1 hp1]; exact hx)
    simp only [List.cons_append, segAux]
    split
    · rw [getLast?_cons_of_ne_nil _ _ (segAux_ne_nil _ _ _ _)]
      exact hstep i (i + 1)
    · next hcond =>
      have hy : y = v0 := not_not.mp hcond
      subst hy
      exact hstep start (i + 1)

/-- C8: if a quantized series ends in a maximal run of n equal values (the
element just before the run, when there is one, differs from the run
value), the Segmenter's final segment carries duration n - 1: in
particular, duration 0 whenever the final run has length 1, a non-positive
duration despite the Segment shape calling for positive ones. -/
theorem seg_last_run_duration (p : List ℚ) (v : ℚ) (n : ℕ) (hn : 0 < n)
    (hlast : ∀ x, p.getLast? = some x → x ≠ v) :
    (get_power_segents (p ++ List.replicate n v)).bind List.getLast? =
      some (n - 1, v) := by
  cases p with
  | nil =>
    obtain ⟨k, rfl⟩ : ∃ k, n = k + 1 := ⟨n - 1, by omega⟩
    simp only [List.nil_append, List.replicate_succ, get_power_segents,
      Option.some_bind]
    rw [segAux_replicate k 0 1 v]
    have heq : 1 + k - 1 - 0 = k := by omega
    rw [heq]
    rfl
  | cons y p1 =>
    simp only [List.cons_append, get_power_segents, Option.some_bind]
    apply segAux_append_replicate n v hn p1 0 1 y
    · intro hp1
      subst hp1
      exact hlast y (by simp)
    · intro x hx
      have hp1 : p1 ≠ [] := by
        intro hh
        subst hh
        simp at hx
      exact hlast x (by rw [getLast?_cons_of_ne_nil y p1 hp1]; exact hx)

/-- Witness for C8's theorem: the series [1, 2], whose final run has length
1, gets a final segment of duration 0. -/
theorem seg_last_run_duration_witness :
    (get_power_segents ([(1 : ℚ)] ++ List.replicate 1 2)).bind List.getLast? =
      some (1 - 1, 2) :=
  seg_last_run_duration [1] 2 1 (by decide) (by
    intro x hx
    simp only [List.getLast?_singleton, Option.some.injEq] at hx
    subst hx
    decide)

/-! ### IntervalMerger lemmas -/

theorem intervalsAux_min_duration (m : ℕ) (segs : List (ℕ × ℚ)) :
    ∀ (dur : ℕ) (lp : ℚ) (out : List (ℕ × ℤ)),
      intervalsAux m dur lp segs = some out → ∀ it ∈ out, m ≤ it.1 := by
  induction segs with
  | nil =>
    intro dur lp out h it hit
    simp only [intervalsAux, Option.some.injEq] at h
    subst h
    simp at hit
  | cons s rest ih =>
    obtain ⟨d, p⟩ := s
    intro dur lp out h it hit
    simp only [intervalsAux] at h
    split at h
    · exact absurd h (by simp)
    · split at h
      · exact ih (dur + d) _ out h it hit
      · next hge =>
        rw [Option.map_eq_some'] at h
        obtain ⟨out1, hout1, rfl⟩ := h
        rcases List.mem_cons.mp hit with rfl | hit2
        · have : m ≤ max dur d := le_of_not_lt hge
          simp only
          omega
        · exact ih 0 0 out1 hout1 it hit2

/-- C3: every Interval the IntervalMerger emits has duration at least
min_duration: emission happens only when `max(dur, d) ≥ min_duration`
held before the update, and the emitted duration is `dur + d ≥
max(dur, d)`; a trailing accumulation that never crosses the threshold is
dropped, never emitted. -/
theorem intervals_min_duration (segments : List (ℕ × ℚ)) (m : ℕ)
    (out : List (ℕ × ℤ)) (h : get_intervals segments m = some out) :
    ∀ d p2, (d, p2) ∈ out → m ≤ d := by
  intro d p2 hmem
  exact intervalsAux_min_duration m segments 0 0 out h (d, p2) hmem

/-- Witness for C3's theorem: a single 40-second segment at 150 W is
emitted as the interval (40, 150), and 30 ≤ 40. -/
theorem intervals_min_duration_witness :
    get_intervals [((40 : ℕ), (150 : ℚ))] 30 = some [(40, 150)] ∧ (30 : ℕ) ≤ 40 :=
  ⟨by norm_num [get_intervals, intervalsAux, ratTrunc],
    intervals_min_duration [((40 : ℕ), (150 : ℚ))] 30 [(40, 150)]
      (by norm_num [get_intervals, intervalsAux, ratTrunc]) 40 150 (by decide)⟩

theorem intervalsAux_isSome (m : ℕ) (segs : List (ℕ × ℚ)) :
    ∀ (dur : ℕ) (lp : ℚ), (∀ s ∈ segs, 0 < s.1) →
      (intervalsAux m dur lp segs).isSome = true := by
  induction segs with
  | nil => intro dur lp _; simp [intervalsAux]
  | cons s rest ih =>
    obtain ⟨d, p⟩ := s
    intro dur lp hpos
    have hd : 0 < d := hpos (d, p) (by simp)
    have hrest : ∀ s ∈ rest, 0 < s.1 :=
      fun s hs => hpos s (List.mem_cons_of_mem _ hs)
    simp only [intervalsAux]
    rw [if_neg (by omega)]
    split
    · exact ih (dur + d) _ hrest
    · have hsome := ih 0 0 hrest
      cases hintv : intervalsAux m 0 0 rest with
      | none => rw [hintv] at hsome; simp at hsome
      | some out1 => simp

/-- C9: when every segment has a positive duration, the divisor `dur + d`
in the duration-weighted-average update is nonzero at every iteration, so
the IntervalMerger never hits its division-by-zero branch and always
returns a result. -/
theorem intervals_total_of_pos (segments : List (ℕ × ℚ)) (m : ℕ)
    (hpos : ∀ s ∈ segments, 0 < s.1) :
    (get_intervals segments m).isSome = true :=
  intervalsAux_isSome m segments 0 0 hpos

/-- Witness for C9's theorem on two positive-duration segments. -/
theorem intervals_total_of_pos_witness :
    (get_intervals [((31 : ℕ), (100 : ℚ)), (2, 120)] 30).isSome = true :=
  intervals_total_of_pos [((31 : ℕ), (100 : ℚ)), (2, 120)] 30 (by decide)

/-! ### Quantizer lemmas -/

theorem foldl_pick_mem (x : ℚ) (cs : List ℚ) : ∀ b : ℚ,
    cs.foldl (fun best c2 => if |x - c2| < |x - best| then c2 else best) b
      ∈ b :: cs := by
  induction cs with
  | nil => intro b; simp
  | cons c cs1 ih =>
    intro b
    simp only [List.foldl_cons]
    rcases List.mem_cons.mp (ih (if |x - c| < |x - b| then c else b)) with h2 | h2
    · rw [h2]
      split
      · simp
      · simp
    · exact List.mem_cons_of_mem _ (List.mem_cons_of_mem _ h2)

theorem assignCentroid_mem (centers : List ℚ) (x : ℚ) (h : centers ≠ []) :
    assignCentroid centers x ∈ centers := by
  cases centers with
  | nil => exact absurd rfl h
  | cons c cs => exact foldl_pick_mem x cs c

/-- C4: for every non-empty SmoothedSeries, the QuantizedSeries holds at
most n_clusters distinct values (the default n_clusters is 7), since every
sample is replaced by the centroid value of the cluster it is assigned to
and there are only n_clusters centroids. -/
theorem quantized_values_bounded (centers : List ℚ) (sm_p : List ℚ) (n : ℕ)
    (hne : sm_p ≠ []) (hn : 0 < n) (hc : centers.length = n) :
    (get_quantized_power centers sm_p).toFinset.card ≤ n ∧
      ∀ q ∈ get_quantized_power centers sm_p, q ∈ centers := by
  have hcne : centers ≠ [] := by
    intro hh
    rw [hh] at hc
    simp at hc
    omega
  have hmem : ∀ q ∈ get_quantized_power centers sm_p, q ∈ centers := by
    intro q hq
    simp only [get_quantized_power, List.mem_map] at hq
    obtain ⟨y, hy, rfl⟩ := hq
    exact assignCentroid_mem centers y hcne
  refine ⟨?_, hmem⟩
  calc (get_quantized_power centers sm_p).toFinset.card
      ≤ centers.toFinset.card := Finset.card_le_card (fun q hq =>
        List.mem_toFinset.mpr (hmem q (List.mem_toFinset.mp hq)))
    _ ≤ centers.length := centers.toFinset_card_le
    _ = n := hc

/-- Witness for C4's theorem with 7 centroids and the two samples [0, 10]. -/
theorem quantized_values_bounded_witness :
    (get_quantized_power [1, 2, 3, 4, 5, 6, 7] [0, 10]).toFinset.card ≤ 7 :=
  (quantized_values_bounded [1, 2, 3, 4, 5, 6, 7] [0, 10] 7 (by decide)
    (by decide) (by decide)).1

/-! ### Smoother -/

/-- C6 (amended): the Smoother applies a median filter with the fixed
window of 21 samples over the UniformSeries and produces a SmoothedSeries
of identical length; its boundary samples are zero-padded (the documented
behavior of the filter the code calls), not symmetric/reflective — see the
counterexample. -/
theorem medfilt_preserves_length (x : List ℚ) :
    (medfilt x 21).length = x.length := by
  simp only [medfilt, List.length_map, List.length_range]

/-- C6 counterexample: on the constant series of five 100 W samples, the
zero-padded filter the code uses outputs all zeros, while a
symmetric/reflective-padding median filter keeps the constant 100, so the
claimed boundary policy is false of the code. -/
theorem medfilt_padding_counterexample :
    medfilt (List.replicate 5 (100 : ℚ)) 21 ≠
      medfilt_reflect (List.replicate 5 (100 : ℚ)) 21 := by decide

/-! ### FTP defaulting and normalization -/

/-- C7: when the FTP option is omitted (or present but non-numeric) the run
does not fail: the default 300.0 is used, and every interval's power is
written normalized as power/300. -/
theorem ftp_default_normalization (arg : Option (Option ℚ))
    (intervals : List (ℕ × ℤ)) (h : arg = none ∨ arg = some none) :
    zwo_powers intervals (resolve_ftp arg) =
      intervals.map (fun it => (it.2 : ℚ) / 300) := by
  rcases h with rfl | rfl
  · rfl
  · rfl

/-- Witness for C7's theorem: one interval of 150 W with the FTP option
omitted is exported with normalized power 150/300. -/
theorem ftp_default_normalization_witness :
    zwo_powers [((40 : ℕ), (150 : ℤ))] (resolve_ftp none) =
      [((150 : ℤ) : ℚ) / 300] := by
  rw [ftp_default_normalization none [((40 : ℕ), (150 : ℤ))] (Or.inl rfl)]
  rfl
